import Mathlib

/-!
Shallow embedding of `teaset.py`: a sliding-piece puzzle on a 3×2 grid with
five items and one empty cell, solved by a depth-bounded exhaustive search
(`do_next_step`) that builds a tree of moves lying on solution paths, plus
the solution extraction performed in `__main__`.

Modelling conventions:
* Python `Dict[Item, Position]` becomes a total function `Item → Position`
  (the code assumes every item is present; `configuration[step.item]` would
  raise otherwise).
* The distinguished `Step.nonestep()` (item `None`, direction `None`) is the
  search-tree root and the "no previous step" marker; real steps always have
  an item and a direction, so previous steps are modelled as `Option Step`
  with `none` for the nonestep (a real `Step` is truthy in Python, the
  nonestep is falsy).
* The anytree side effects (`step.parent = prev_step`) build the tree
  top-down by mutation; functionally, `do_next_step` returns the list of
  children attached under `prev_step`, in attachment order, and a `Tree`
  value packages a step with the children attached under it.
* The recursion in `do_next_step` is bounded by
  `prev_steps_count == MAX_STEPS`; the embedding carries the remaining
  budget `MAX_STEPS - prev_steps_count` as a fuel argument, which is the
  same function on all reachable calls (the count starts at 0 and only
  increases by 1 while below the bound).
* `anytree` facts used for the `__main__` extraction: `node.depth` is the
  number of edges from the root (the root has depth 0), `node.leaves` is the
  tuple of leaf descendants in preorder (a childless node is its own unique
  leaf), and `node.path` is the tuple of nodes from the root to `node`
  inclusive. Python's `list.sort` is stable and ascending.
-/

namespace Teaset

/-- `TABLE_WIDTH = 3` (src/teaset.py line 9). -/
def TABLE_WIDTH : Int := 3

/-- `TABLE_HEIGHT = 2` (src/teaset.py line 10). -/
def TABLE_HEIGHT : Int := 2

/-- `MAX_STEPS = 18` (src/teaset.py line 13), the step bound of the
reference instance.  The search below takes the bound as a parameter so
that other instances (e.g. `MAX_STEPS = 0`) can be stated. -/
def MAX_STEPS : Nat := 18

/-- The five items, in declaration order (src/teaset.py lines 16-21). -/
inductive Item where
  | CUP_1
  | CUP_2
  | CUP_3
  | POT
  | MILK_JUG
  deriving DecidableEq, Repr

/-- Iteration order of `for item in Item`: enum declaration order. -/
def Item.all : List Item := [.CUP_1, .CUP_2, .CUP_3, .POT, .MILK_JUG]

/-- The four directions, in declaration order (src/teaset.py lines 27-31). -/
inductive Direction where
  | LEFT
  | RIGHT
  | DOWN
  | UP
  deriving DecidableEq, Repr

/-- The `value` of each `Direction` enum member: its displacement vector. -/
def Direction.value : Direction → Int × Int
  | .LEFT => (-1, 0)
  | .RIGHT => (1, 0)
  | .DOWN => (0, -1)
  | .UP => (0, 1)

/-- Iteration order of `for direction in Direction`: declaration order. -/
def Direction.all : List Direction := [.LEFT, .RIGHT, .DOWN, .UP]

/-- `Direction.reverse` (src/teaset.py lines 41-42): the member whose vector
is the negation of this member's vector, written out per case. -/
def Direction.reverse : Direction → Direction
  | .LEFT => .RIGHT
  | .RIGHT => .LEFT
  | .DOWN => .UP
  | .UP => .DOWN

/-- `Position` (src/teaset.py lines 68-78): a pair of integer coordinates. -/
structure Position where
  x : Int
  y : Int
  deriving DecidableEq, Repr

/-- `Position.__add__` with a `(dx, dy)` tuple (src/teaset.py lines 73-74):
coordinatewise sum. -/
def Position.add (p : Position) (v : Int × Int) : Position :=
  ⟨p.x + v.1, p.y + v.2⟩

/-- `Position.is_within_rect` (src/teaset.py lines 80-85).  The Python
defaults `xmin = 0`, `ymin = 0` are passed explicitly by every caller of
this embedding. -/
def Position.is_within_rect (p : Position) (xmax ymax xmin ymin : Int) : Bool :=
  (decide (xmin ≤ p.x) && decide (p.x < xmax)) && (decide (ymin ≤ p.y) && decide (p.y < ymax))

/-- A real `Step` (src/teaset.py lines 45-48): an item plus a direction.
The `nonestep` sentinel is represented as `none` at uses. -/
structure Step where
  item : Item
  direction : Direction
  deriving DecidableEq, Repr

/-- `Step.is_reversed_for` (src/teaset.py lines 50-55): same item, and this
step's direction is the reverse of the other's. -/
def Step.is_reversed_for (s other : Step) : Bool :=
  decide (other.item = s.item) && decide (s.direction = other.direction.reverse)

/-- `Table` (src/teaset.py lines 88-90): the configuration maps each item
to its position (the dict always holds all five items). -/
structure Table where
  configuration : Item → Position

/-- `Table.is_position_vacant` (src/teaset.py lines 92-93): no item of the
configuration occupies `position`. -/
def Table.is_position_vacant (t : Table) (position : Position) : Bool :=
  Item.all.all fun i => decide (t.configuration i ≠ position)

/-- `Table.is_step_possible` (src/teaset.py lines 95-101): the item's
position displaced by the step's direction is within the table rectangle
and vacant. -/
def Table.is_step_possible (t : Table) (step : Step) : Bool :=
  let new_position := (t.configuration step.item).add step.direction.value
  new_position.is_within_rect TABLE_WIDTH TABLE_HEIGHT 0 0 && t.is_position_vacant new_position

/-- `Table.fromstep` (src/teaset.py lines 103-107): copy the configuration
and displace `step.item`'s entry by the step's direction vector; a fresh
`Table` value, the argument is untouched (the dict is copied). -/
def Table.fromstep (t : Table) (step : Step) : Table :=
  ⟨fun i => if i = step.item then (t.configuration step.item).add step.direction.value
            else t.configuration i⟩

/-- `INITIAL_TABLE` (src/teaset.py lines 110-118). -/
def INITIAL_TABLE : Table :=
  ⟨fun i => match i with
    | .CUP_1 => ⟨0, 1⟩
    | .CUP_2 => ⟨0, 0⟩
    | .CUP_3 => ⟨1, 0⟩
    | .POT => ⟨2, 1⟩
    | .MILK_JUG => ⟨2, 0⟩⟩

/-- `is_result_table` (src/teaset.py lines 121-127): the pot is at `(2,0)`
and the milk jug at `(2,1)`. -/
def is_result_table (t : Table) : Bool :=
  decide (t.configuration .POT = ⟨2, 0⟩) && decide (t.configuration .MILK_JUG = ⟨2, 1⟩)

/-- The filter of the candidate list comprehension (src/teaset.py lines
135-146): the step is possible on `prev_table`, and either there is no
previous real step (`not prev_step`, true exactly for the nonestep) or the
step is not the reverse of the previous one. -/
def step_allowed (prev_table : Table) (prev_step : Option Step) (s : Step) : Bool :=
  prev_table.is_step_possible s &&
    (match prev_step with
     | none => true
     | some ps => ! s.is_reversed_for ps)

/-- The candidate list `steps` (src/teaset.py lines 135-146): all
`(item, direction)` pairs in enumeration order, filtered by
`step_allowed`. -/
def gen_steps (prev_table : Table) (prev_step : Option Step) : List Step :=
  ((Item.all.map fun item => Direction.all.map fun d => Step.mk item d).flatten).filter
    (step_allowed prev_table prev_step)

/-- A search-tree node: the step it represents plus the children attached
under it, in attachment order.  The root (the nonestep) is not a `Tree`;
the children attached under it are kept as a `List Tree`. -/
inductive Tree where
  | node (step : Step) (children : List Tree)

/-- The step a tree node represents. -/
def Tree.rootStep : Tree → Step
  | .node s _ => s

/-- The `for step in steps` loop body of `do_next_step` (src/teaset.py
lines 148-159), parametrized by `rec`, the recursive call at the next
depth.  A candidate whose resulting table satisfies the goal is attached
as a leaf and the loop breaks; a candidate whose recursive search returns
success (a nonempty list of attached children) is attached with those
children and the loop continues; otherwise the candidate is discarded and
the loop continues. -/
def explore (rec : Table → Option Step → List Tree) (prev_table : Table) : List Step → List Tree
  | [] => []
  | step :: rest =>
      let table := prev_table.fromstep step
      if is_result_table table then [Tree.node step []]
      else
        let ch := rec table (some step)
        if ch.isEmpty then explore rec prev_table rest
        else Tree.node step ch :: explore rec prev_table rest

/-- `do_next_step` (src/teaset.py lines 130-159), in fuel form: the first
argument is the remaining budget `max_steps - prev_steps_count`, so the
`prev_steps_count == MAX_STEPS` cutoff is the `0` case and the recursive
call at `prev_steps_count + 1` gets one unit less.  The Python function
returns a success boolean and attaches children to `prev_step` by
mutation; here the attached children are returned (success means a
nonempty result). -/
def do_next_step : Nat → Table → Option Step → List Tree
  | 0 => fun _ _ => []
  | n + 1 => fun prev_table prev_step =>
      explore (do_next_step n) prev_table (gen_steps prev_table prev_step)

/-- The top-level search of `__main__` (src/teaset.py lines 163-164) with
the step bound as a parameter: the children attached under the nonestep
root after `do_next_step(initial, root_step)` with bound `max_steps`. -/
def solve (max_steps : Nat) (t : Table) : List Tree :=
  do_next_step max_steps t none

mutual

/-- Root-to-leaf step paths of a tree node, in preorder: for a childless
node the single path `[s]`, otherwise every child path prefixed with this
node's step.  This is `[s for s in leaf.path if s]` for each
`leaf in node.leaves` of anytree, in preorder. -/
def Tree.leafPaths : Tree → List (List Step)
  | .node s [] => [[s]]
  | .node s (c :: cs) => (leafPathsOf (c :: cs)).map fun p => s :: p

/-- Concatenated leaf paths of a list of sibling trees, in order. -/
def leafPathsOf : List Tree → List (List Step)
  | [] => []
  | t :: ts => t.leafPaths ++ leafPathsOf ts

end

/-- One insertion step of a stable ascending sort on the first component,
keeping earlier elements with equal keys in front. -/
def insertByLen (x : Int × List Step) : List (Int × List Step) → List (Int × List Step)
  | [] => [x]
  | y :: ys => if y.1 ≤ x.1 then y :: insertByLen x ys else x :: y :: ys

/-- `result.sort(key=itemgetter(0))` (src/teaset.py line 170): a stable
sort, ascending in the first component. -/
def sortByLen (l : List (Int × List Step)) : List (Int × List Step) :=
  l.foldl (fun acc x => insertByLen x acc) []

/-- The extraction of `__main__` (src/teaset.py lines 169-174) applied to
a root with the given attached children: for every leaf of the root, the
pair of `leaf.depth - 1` and the real steps of `leaf.path` (the falsy
nonestep root is filtered out), sorted by the first component.  When the
root has no children it is its own unique leaf, with depth `0` and an
empty filtered path. -/
def extract_solutions (root_children : List Tree) : List (Int × List Step) :=
  sortByLen
    (if root_children.isEmpty then [((0 : Int) - 1, ([] : List Step))]
     else (leafPathsOf root_children).map fun p => ((p.length : Int) - 1, p))

/-- Replay a step sequence from a table, applying each step only if it is
possible on the table reached so far; `none` if some step is not. -/
def replay : Table → List Step → Option Table
  | t, [] => some t
  | t, s :: ms => if t.is_step_possible s then replay (t.fromstep s) ms else none

/-- The board invariant of the spec: all five item positions are within
`[0, TABLE_WIDTH) × [0, TABLE_HEIGHT)` and pairwise distinct. -/
def validTable (t : Table) : Prop :=
  (∀ i : Item, (t.configuration i).is_within_rect TABLE_WIDTH TABLE_HEIGHT 0 0 = true) ∧
  (∀ i j : Item, i ≠ j → t.configuration i ≠ t.configuration j)

/-- A universal statement over the five items is decided by checking each
item. -/
instance instDecidableForallItem (p : Item → Prop) [DecidablePred p] :
    Decidable (∀ i : Item, p i) :=
  decidable_of_iff (p .CUP_1 ∧ p .CUP_2 ∧ p .CUP_3 ∧ p .POT ∧ p .MILK_JUG)
    ⟨fun h i => by rcases h with ⟨h1, h2, h3, h4, h5⟩; cases i <;> assumption,
     fun h => ⟨h _, h _, h _, h _, h _⟩⟩

instance instDecidableValidTable (t : Table) : Decidable (validTable t) :=
  decidable_of_iff
    ((∀ i : Item, (t.configuration i).is_within_rect TABLE_WIDTH TABLE_HEIGHT 0 0 = true) ∧
     (∀ i j : Item, i ≠ j → t.configuration i ≠ t.configuration j))
    Iff.rfl

/-- A step list headed by a step that is not the reverse of the given
previous step, recursively: the chain condition maintained by the search
(each step becomes the previous step of its successor). -/
def chainOk : Option Step → List Step → Prop
  | _, [] => True
  | prev, s :: rest =>
      (∀ ps, prev = some ps → s.is_reversed_for ps = false) ∧ chainOk (some s) rest

/-- No step of the list is followed immediately by its reverse. -/
def consecOk : List Step → Prop
  | [] => True
  | [_] => True
  | a :: b :: rest => b.is_reversed_for a = false ∧ consecOk (b :: rest)

/-- The children the loop attaches for a candidate segment none of whose
members reaches the goal immediately: each candidate whose recursive
search succeeds, with its subtree, in candidate order. -/
def explore_collect (n : Nat) (prev_table : Table) (l : List Step) : List Tree :=
  l.filterMap fun s =>
    let ch := do_next_step n (prev_table.fromstep s) (some s)
    if ch.isEmpty then none else some (Tree.node s ch)

/-- Well-formedness of an attached subtree relative to the table it was
explored from and the step that led there: its step is possible, is not
the reverse of the previous step, a leaf reaches the goal, and the
children are well-formed for the resulting table. -/
inductive GoodTree : Table → Option Step → Tree → Prop where
  | node : ∀ (t : Table) (prev : Option Step) (s : Step) (cs : List Tree),
      t.is_step_possible s = true →
      (∀ ps, prev = some ps → s.is_reversed_for ps = false) →
      (cs = [] → is_result_table (t.fromstep s) = true) →
      (∀ c ∈ cs, GoodTree (t.fromstep s) (some s) c) →
      GoodTree t prev (.node s cs)

/-- A table that already satisfies the goal predicate (pot at `(2,0)`,
milk jug at `(2,1)`), with the cups as in `INITIAL_TABLE`; the cell
`(1,1)` is empty.  Used as a concrete instance: two distinct moves
(`CUP_1` right and `CUP_3` up) each lead to a table satisfying the goal. -/
def SOLVED_TABLE : Table :=
  ⟨fun i => match i with
    | .CUP_1 => ⟨0, 1⟩
    | .CUP_2 => ⟨0, 0⟩
    | .CUP_3 => ⟨1, 0⟩
    | .POT => ⟨2, 0⟩
    | .MILK_JUG => ⟨2, 1⟩⟩

/-- Every item is in the enumeration list. -/
theorem mem_item_all (i : Item) : i ∈ Item.all := by
  cases i <;> simp [Item.all]

/-- Unfolding of `explore` on the empty candidate list. -/
theorem explore_nil (rec : Table → Option Step → List Tree) (pt : Table) :
    explore rec pt [] = [] := rfl

/-- Unfolding of `explore` on a candidate: the goal branch breaks, the
recursive branch attaches on success and continues either way. -/
theorem explore_cons (rec : Table → Option Step → List Tree) (pt : Table)
    (s : Step) (rest : List Step) :
    explore rec pt (s :: rest) =
      if is_result_table (pt.fromstep s) then [Tree.node s []]
      else if (rec (pt.fromstep s) (some s)).isEmpty then explore rec pt rest
      else Tree.node s (rec (pt.fromstep s) (some s)) :: explore rec pt rest := rfl

/-- The depth cutoff: with no remaining budget the search attaches
nothing. -/
theorem do_next_step_zero (t : Table) (prev : Option Step) :
    do_next_step 0 t prev = [] := rfl

/-- Below the cutoff, the search runs the candidate loop. -/
theorem do_next_step_succ (n : Nat) (t : Table) (prev : Option Step) :
    do_next_step (n + 1) t prev = explore (do_next_step n) t (gen_steps t prev) := rfl

/-- An allowed candidate is possible on the table. -/
theorem step_allowed_possible {t : Table} {prev : Option Step} {s : Step}
    (h : step_allowed t prev s = true) : t.is_step_possible s = true := by
  unfold step_allowed at h
  exact (Bool.and_eq_true _ _).mp h |>.1

/-- An allowed candidate is not the reverse of the previous real step. -/
theorem step_allowed_noRev {t : Table} {prev : Option Step} {s : Step}
    (h : step_allowed t prev s = true) :
    ∀ ps, prev = some ps → s.is_reversed_for ps = false := by
  intro ps hps
  subst hps
  unfold step_allowed at h
  have h2 := (Bool.and_eq_true _ _).mp h |>.2
  simpa using h2

/-- Membership in the candidate list implies the filter condition. -/
theorem mem_gen_steps {t : Table} {prev : Option Step} {s : Step}
    (h : s ∈ gen_steps t prev) : step_allowed t prev s = true :=
  (List.mem_filter.mp h).2

/-- Leaf paths of a sibling list are the leaf paths of its members. -/
theorem mem_leafPathsOf {p : List Step} : ∀ {l : List Tree},
    p ∈ leafPathsOf l ↔ ∃ t ∈ l, p ∈ t.leafPaths := by
  intro l
  induction l with
  | nil => simp [leafPathsOf]
  | cons t ts ih => simp [leafPathsOf, List.mem_append, ih]

/-- Every leaf path contains the node's own step, hence at least one
step. -/
theorem leafPaths_length_pos (tr : Tree) (p : List Step) (h : p ∈ tr.leafPaths) :
    1 ≤ p.length := by
  obtain ⟨s, cs⟩ := tr
  cases cs with
  | nil =>
      simp [Tree.leafPaths] at h
      subst h
      simp
  | cons c cs' =>
      rw [Tree.leafPaths] at h
      rcases List.mem_map.mp h with ⟨q, _, rfl⟩
      simp

/-- Membership through one stable-insertion step. -/
theorem mem_insertByLen {a x : Int × List Step} : ∀ {l : List (Int × List Step)},
    a ∈ insertByLen x l ↔ a = x ∨ a ∈ l := by
  intro l
  induction l with
  | nil => simp [insertByLen]
  | cons y ys ih =>
      by_cases h : y.1 ≤ x.1
      · simp [insertByLen, h, ih]
        tauto
      · simp [insertByLen, h]

/-- The sort of the extraction is a permutation: same members. -/
theorem mem_sortByLen {a : Int × List Step} {l : List (Int × List Step)} :
    a ∈ sortByLen l ↔ a ∈ l := by
  have key : ∀ (l acc : List (Int × List Step)),
      a ∈ l.foldl (fun acc x => insertByLen x acc) acc ↔ a ∈ acc ∨ a ∈ l := by
    intro l
    induction l with
    | nil => simp
    | cons x xs ih =>
        intro acc
        rw [List.foldl_cons, ih, mem_insertByLen]
        simp
        tauto
  rw [sortByLen, key]
  simp

/-- What a pair extracted from the tree can be: the childless-root pair
`(-1, [])`, or a leaf path with the reported length one less than its
number of steps. -/
theorem mem_extract_solutions {children : List Tree} {len : Int} {ms : List Step}
    (h : (len, ms) ∈ extract_solutions children) :
    (children = [] ∧ len = -1 ∧ ms = []) ∨
    (ms ∈ leafPathsOf children ∧ len = (ms.length : Int) - 1) := by
  unfold extract_solutions at h
  rw [mem_sortByLen] at h
  cases children with
  | nil =>
      simp at h
      left
      exact ⟨rfl, by omega, h.2⟩
  | cons c cs =>
      simp at h
      right
      exact ⟨h.1, by omega⟩

/-- Every tree the candidate loop attaches is well-formed, given that the
recursive call only attaches well-formed trees and every candidate in the
list passed the filter. -/
theorem mem_explore_good (n : Nat)
    (ih : ∀ (t : Table) (prev : Option Step) (tr : Tree),
      tr ∈ do_next_step n t prev → GoodTree t prev tr)
    (t : Table) (prev : Option Step) :
    ∀ (l : List Step), (∀ s ∈ l, step_allowed t prev s = true) →
      ∀ tr ∈ explore (do_next_step n) t l, GoodTree t prev tr := by
  intro l
  induction l with
  | nil =>
      intro _ tr htr
      rw [explore_nil] at htr
      simp at htr
  | cons s rest ihl =>
      intro hall tr htr
      rw [explore_cons] at htr
      have hs := hall s (List.mem_cons_self s rest)
      split at htr
      case isTrue hres =>
        rw [List.mem_singleton] at htr
        subst htr
        refine GoodTree.node t prev s [] (step_allowed_possible hs)
          (step_allowed_noRev hs) (fun _ => hres) ?_
        intro c hc
        simp at hc
      case isFalse hres =>
        split at htr
        case isTrue hemp =>
          exact ihl (fun x hx => hall x (List.mem_cons_of_mem s hx)) tr htr
        case isFalse hemp =>
          rcases List.mem_cons.mp htr with rfl | htr'
          · refine GoodTree.node t prev s _ (step_allowed_possible hs)
              (step_allowed_noRev hs) ?_ ?_
            · intro hnil
              rw [hnil] at hemp
              simp at hemp
            · intro c hc
              exact ih _ _ c hc
          · exact ihl (fun x hx => hall x (List.mem_cons_of_mem s hx)) tr htr'

/-- Every tree the search attaches is well-formed: its step is possible
and non-reversing, leaves reach the goal, children recursively so. -/
theorem mem_do_next_step_good :
    ∀ (n : Nat) (t : Table) (prev : Option Step) (tr : Tree),
      tr ∈ do_next_step n t prev → GoodTree t prev tr := by
  intro n
  induction n with
  | zero =>
      intro t prev tr htr
      rw [do_next_step_zero] at htr
      simp at htr
  | succ n ih =>
      intro t prev tr htr
      rw [do_next_step_succ] at htr
      exact mem_explore_good n ih t prev (gen_steps t prev)
        (fun s hs => mem_gen_steps hs) tr htr

/-- Replaying any leaf path of a well-formed tree from its table applies
only possible steps and ends in a table satisfying the goal. -/
theorem good_replay {t : Table} {prev : Option Step} {tr : Tree}
    (h : GoodTree t prev tr) :
    ∀ p ∈ tr.leafPaths, ∃ t', replay t p = some t' ∧ is_result_table t' = true := by
  induction h with
  | node t prev s cs hposs hrev hgoal hch ih =>
      intro p hp
      cases cs with
      | nil =>
          simp [Tree.leafPaths] at hp
          subst hp
          refine ⟨t.fromstep s, ?_, hgoal rfl⟩
          simp [replay, hposs]
      | cons c cs' =>
          rw [Tree.leafPaths] at hp
          rcases List.mem_map.mp hp with ⟨q, hq, rfl⟩
          rcases mem_leafPathsOf.mp hq with ⟨c', hc', hq'⟩
          rcases ih c' hc' q hq' with ⟨t', ht', hres⟩
          exact ⟨t', by simp [replay, hposs, ht'], hres⟩

/-- Every leaf path of a well-formed tree satisfies the chain condition:
no step is the reverse of the one before it (nor of the step that led to
the tree's root). -/
theorem good_chainOk {t : Table} {prev : Option Step} {tr : Tree}
    (h : GoodTree t prev tr) :
    ∀ p ∈ tr.leafPaths, chainOk prev p := by
  induction h with
  | node t prev s cs hposs hrev hgoal hch ih =>
      intro p hp
      cases cs with
      | nil =>
          simp [Tree.leafPaths] at hp
          subst hp
          exact ⟨hrev, trivial⟩
      | cons c cs' =>
          rw [Tree.leafPaths] at hp
          rcases List.mem_map.mp hp with ⟨q, hq, rfl⟩
          rcases mem_leafPathsOf.mp hq with ⟨c', hc', hq'⟩
          exact ⟨hrev, ih c' hc' q hq'⟩

/-- The chain condition implies that no step is immediately followed by
its reverse. -/
theorem chainOk_consecOk : ∀ (p : List Step) (prev : Option Step),
    chainOk prev p → consecOk p := by
  intro p
  induction p with
  | nil => intro _ _; trivial
  | cons a rest ih =>
      intro prev h
      cases rest with
      | nil => trivial
      | cons b r => exact ⟨h.2.1 a rfl, ih (some a) h.2⟩

/-- A possible step preserves the board invariant: the moved item lands
within bounds on a vacant cell, all other items are unchanged. -/
theorem valid_fromstep {t : Table} {s : Step}
    (hv : validTable t) (hp : t.is_step_possible s = true) :
    validTable (t.fromstep s) := by
  obtain ⟨hb, hd⟩ := hv
  rw [Table.is_step_possible, Bool.and_eq_true] at hp
  obtain ⟨hin, hvac⟩ := hp
  rw [Table.is_position_vacant, List.all_eq_true] at hvac
  have hvac' : ∀ i : Item,
      t.configuration i ≠ (t.configuration s.item).add s.direction.value := by
    intro i
    have := hvac i (mem_item_all i)
    simpa using this
  constructor
  · intro i
    by_cases hi : i = s.item
    · subst hi
      simpa [Table.fromstep] using hin
    · simpa [Table.fromstep, hi] using hb i
  · intro i j hij
    by_cases hi : i = s.item <;> by_cases hj : j = s.item
    · exact absurd (hi.trans hj.symm) hij
    · subst hi
      simp [Table.fromstep, hj]
      exact fun hc => hvac' j hc.symm
    · subst hj
      simp [Table.fromstep, hi]
      exact hvac' i
    · simpa [Table.fromstep, hi, hj] using hd i j hij

/-- The reverse direction's vector is the negation of the direction's
vector, componentwise. -/
theorem direction_value_add_reverse (d : Direction) :
    d.value.1 + d.reverse.value.1 = 0 ∧ d.value.2 + d.reverse.value.2 = 0 := by
  cases d <;> exact ⟨by decide, by decide⟩

/-- Displacing a position by two vectors that cancel componentwise gives
the position back. -/
theorem position_add_cancel (p : Position) (v w : Int × Int)
    (h1 : v.1 + w.1 = 0) (h2 : v.2 + w.2 = 0) : (p.add v).add w = p := by
  cases p with
  | mk x y =>
      simp only [Position.add, Position.mk.injEq]
      constructor <;> omega

/-- C1 (counterexample): the branch-exploration loop does NOT examine the
remaining sibling candidates once a candidate whose resulting board
satisfies the goal has been attached.  On `SOLVED_TABLE` the candidate
list is `[CUP_1 RIGHT, CUP_3 UP, MILK_JUG LEFT]`; `CUP_3 UP` also leads to
a board satisfying the goal (the goal only constrains the pot and the milk
jug), yet the tree returned by the search contains no node for it: the
loop broke at `CUP_1 RIGHT`. -/
theorem C1_counterexample :
    gen_steps SOLVED_TABLE none =
      [⟨.CUP_1, .RIGHT⟩, ⟨.CUP_3, .UP⟩, ⟨.MILK_JUG, .LEFT⟩] ∧
    is_result_table (SOLVED_TABLE.fromstep ⟨.CUP_3, .UP⟩) = true ∧
    ¬ ∃ tr ∈ do_next_step 1 SOLVED_TABLE none, tr.rootStep = ⟨.CUP_3, .UP⟩ :=
  ⟨by decide, by decide, by decide⟩

/-- C1 (amended): the loop examines candidates in order only up to the
FIRST candidate whose resulting board satisfies the goal: every earlier
candidate whose recursive search succeeds is attached with its subtree
(`explore_collect`), the first goal-reaching candidate is attached as a
leaf, and the loop then breaks, so the candidates after it are not
examined.  Sibling candidates whose recursion succeeds (rather than
reaching the goal in one step) do not break the loop. -/
theorem C1_goal_candidate_breaks_loop :
    ∀ (n : Nat) (t : Table) (prev : Option Step) (l1 : List Step) (s : Step) (l2 : List Step),
    gen_steps t prev = l1 ++ s :: l2 →
    (∀ x ∈ l1, is_result_table (t.fromstep x) = false) →
    is_result_table (t.fromstep s) = true →
    do_next_step (n + 1) t prev = explore_collect n t l1 ++ [Tree.node s []] := by
  intro n t prev l1 s l2 hgen hl1 hs
  rw [do_next_step_succ, hgen]
  clear hgen
  revert hl1
  induction l1 with
  | nil =>
      intro _
      rw [List.nil_append, explore_cons, if_pos hs]
      simp [explore_collect]
  | cons x l1' ih =>
      intro hl1
      have hx : is_result_table (t.fromstep x) = false := hl1 x (List.mem_cons_self x l1')
      rw [List.cons_append, explore_cons, if_neg (by simp [hx])]
      have ih' := ih fun y hy => hl1 y (List.mem_cons_of_mem x hy)
      by_cases hemp : (do_next_step n (t.fromstep x) (some x)).isEmpty = true
      · rw [if_pos hemp, ih']
        simp [explore_collect, List.filterMap_cons, hemp]
      · rw [if_neg hemp, ih']
        simp only [Bool.not_eq_true] at hemp
        simp [explore_collect, List.filterMap_cons, hemp]

theorem C1_goal_candidate_breaks_loop_witness :
    gen_steps SOLVED_TABLE none =
      [] ++ (⟨.CUP_1, .RIGHT⟩ : Step) :: [⟨.CUP_3, .UP⟩, ⟨.MILK_JUG, .LEFT⟩] ∧
    is_result_table (SOLVED_TABLE.fromstep ⟨.CUP_1, .RIGHT⟩) = true ∧
    do_next_step 1 SOLVED_TABLE none =
      explore_collect 0 SOLVED_TABLE [] ++ [Tree.node ⟨.CUP_1, .RIGHT⟩ []] :=
  ⟨by decide, by decide,
    C1_goal_candidate_breaks_loop 0 SOLVED_TABLE none [] ⟨.CUP_1, .RIGHT⟩
      [⟨.CUP_3, .UP⟩, ⟨.MILK_JUG, .LEFT⟩] (by decide) (by simp) (by decide)⟩

/-- C2 (counterexample): with step bound 0 the search does return a root
with no children, but the extraction applied to that root is NOT an empty
sequence: the childless root is its own unique leaf, so the extraction
returns one pair. -/
theorem C2_counterexample :
    solve 0 INITIAL_TABLE = [] ∧
    extract_solutions (solve 0 INITIAL_TABLE) ≠ [] :=
  ⟨rfl, by decide⟩

/-- C2 (amended): with step bound 0 the search returns a root with no
children, and the extraction applied to that root returns the single pair
`(-1, [])`: the childless root is its own unique leaf, its reported length
is its depth 0 minus 1, and its filtered path holds no move. -/
theorem C2_empty_root (t : Table) :
    solve 0 t = [] ∧
    extract_solutions (solve 0 t) = [((-1 : Int), ([] : List Step))] :=
  ⟨rfl, rfl⟩

/-- C3 (code bug, evaluation at the failing input): on `SOLVED_TABLE` with
step bound 1 the extraction returns the single solution `[CUP_1 RIGHT]`
with reported length 0.  Replaying that solution from the initial table
applies only possible steps and reaches a table satisfying the goal, but
the sequence has 1 move while the reported length is 0: the code reports
`leaf.depth - 1` although the filtered root-to-leaf path holds
`leaf.depth` moves. -/
theorem C3_reported_length_off_by_one :
    (∀ (n : Nat) (t : Table) (len : Int) (ms : List Step),
      (len, ms) ∈ extract_solutions (solve n t) → ms ≠ [] →
      ∃ t', replay t ms = some t' ∧ is_result_table t' = true ∧
        (ms.length : Int) = len + 1) ∧
    extract_solutions (solve 1 SOLVED_TABLE) =
      [((0 : Int), [⟨.CUP_1, .RIGHT⟩])] ∧
    (([(⟨.CUP_1, .RIGHT⟩ : Step)].length : Int) ≠ (0 : Int)) := by
  refine ⟨?_, by decide, by decide⟩
  intro n t len ms hmem hne
  rcases mem_extract_solutions hmem with ⟨_, _, hnil⟩ | ⟨hp, hlen⟩
  · exact absurd hnil hne
  · rcases mem_leafPathsOf.mp hp with ⟨tr, htr, hptr⟩
    rcases good_replay (mem_do_next_step_good n t none tr htr) ms hptr with ⟨t', ht', hres⟩
    exact ⟨t', ht', hres, by omega⟩

theorem C3_reported_length_off_by_one_witness :
    ∃ t', replay SOLVED_TABLE [(⟨.CUP_1, .RIGHT⟩ : Step)] = some t' ∧
      is_result_table t' = true ∧
      (([(⟨.CUP_1, .RIGHT⟩ : Step)].length : Int) = (0 : Int) + 1) :=
  C3_reported_length_off_by_one.1 1 SOLVED_TABLE 0 [⟨.CUP_1, .RIGHT⟩]
    (by decide) (by simp)

/-- C4: for every board reachable from a board whose five item positions
are pairwise distinct and within `[0,3)×[0,2)`, by a sequence of moves each
possible on the board it is applied to (`replay` applies a move only when
`is_step_possible` holds), the resulting board again has pairwise distinct,
in-bounds item positions. -/
theorem C4_invariant_preserved :
    ∀ (t : Table) (ms : List Step) (t' : Table),
      validTable t → replay t ms = some t' → validTable t' := by
  intro t ms
  induction ms generalizing t with
  | nil =>
      intro t' hv h
      rw [replay] at h
      cases h
      exact hv
  | cons s rest ih =>
      intro t' hv h
      rw [replay] at h
      split at h
      case isTrue hp => exact ih (t.fromstep s) t' (valid_fromstep hv hp) h
      case isFalse hp => exact absurd h (by simp)

theorem C4_invariant_preserved_witness :
    validTable INITIAL_TABLE ∧
    replay INITIAL_TABLE [(⟨.CUP_1, .RIGHT⟩ : Step)] =
      some (INITIAL_TABLE.fromstep ⟨.CUP_1, .RIGHT⟩) ∧
    validTable (INITIAL_TABLE.fromstep ⟨.CUP_1, .RIGHT⟩) :=
  ⟨by decide, rfl,
    C4_invariant_preserved INITIAL_TABLE [⟨.CUP_1, .RIGHT⟩]
      (INITIAL_TABLE.fromstep ⟨.CUP_1, .RIGHT⟩) (by decide) rfl⟩

/-- C5: no solution sequence produced by the search and extraction has a
step immediately followed by its reverse (same item, opposite direction):
the candidate filter excludes the reverse of the step that led to each
node, and that step is exactly the predecessor on every path. -/
theorem C5_no_immediate_reversal :
    ∀ (n : Nat) (t : Table) (len : Int) (ms : List Step),
      (len, ms) ∈ extract_solutions (solve n t) → consecOk ms := by
  intro n t len ms h
  rcases mem_extract_solutions h with ⟨_, _, hnil⟩ | ⟨hp, _⟩
  · subst hnil
    trivial
  · rcases mem_leafPathsOf.mp hp with ⟨tr, htr, hptr⟩
    exact chainOk_consecOk ms none
      (good_chainOk (mem_do_next_step_good n t none tr htr) ms hptr)

theorem C5_no_immediate_reversal_witness :
    ((0 : Int), [(⟨.CUP_1, .RIGHT⟩ : Step)]) ∈ extract_solutions (solve 1 SOLVED_TABLE) ∧
    consecOk [(⟨.CUP_1, .RIGHT⟩ : Step)] :=
  ⟨by decide, C5_no_immediate_reversal 1 SOLVED_TABLE 0 [⟨.CUP_1, .RIGHT⟩] (by decide)⟩

/-- C6: applying a move possible on `b` and then the move with the same
item and the reverse direction yields a board equal to `b` (the
displacement vectors cancel and no other entry is touched). -/
theorem C6_round_trip :
    ∀ (t : Table) (s : Step), t.is_step_possible s = true →
      (t.fromstep s).fromstep ⟨s.item, s.direction.reverse⟩ = t := by
  intro t s _
  obtain ⟨f⟩ := t
  refine congrArg Table.mk (funext fun i => ?_)
  by_cases hi : i = s.item
  · subst hi
    simp only [Table.fromstep, if_pos rfl]
    exact position_add_cancel _ _ _ (direction_value_add_reverse s.direction).1
      (direction_value_add_reverse s.direction).2
  · simp [Table.fromstep, hi]

theorem C6_round_trip_witness :
    INITIAL_TABLE.is_step_possible ⟨.CUP_1, .RIGHT⟩ = true ∧
    (INITIAL_TABLE.fromstep ⟨.CUP_1, .RIGHT⟩).fromstep
      ⟨Item.CUP_1, Direction.LEFT⟩ = INITIAL_TABLE :=
  ⟨by decide, C6_round_trip INITIAL_TABLE ⟨.CUP_1, .RIGHT⟩ (by decide)⟩

/-- C7: applying a move returns a board in which the moved item's position
is the old one displaced by the direction vector and every other item's
position is unchanged.  (The embedding is functional: `fromstep` copies the
configuration, the argument board itself is never modified, mirroring the
`dict.copy` in the source.) -/
theorem C7_frame :
    ∀ (t : Table) (s : Step),
      (t.fromstep s).configuration s.item =
        (t.configuration s.item).add s.direction.value ∧
      ∀ i : Item, i ≠ s.item → (t.fromstep s).configuration i = t.configuration i := by
  intro t s
  constructor
  · simp [Table.fromstep]
  · intro i hi
    simp [Table.fromstep, hi]

theorem C7_frame_witness :
    (INITIAL_TABLE.fromstep ⟨.CUP_1, .RIGHT⟩).configuration Item.CUP_1 =
      (INITIAL_TABLE.configuration Item.CUP_1).add Direction.RIGHT.value ∧
    (INITIAL_TABLE.fromstep ⟨.CUP_1, .RIGHT⟩).configuration Item.POT =
      INITIAL_TABLE.configuration Item.POT :=
  ⟨(C7_frame INITIAL_TABLE ⟨.CUP_1, .RIGHT⟩).1,
   (C7_frame INITIAL_TABLE ⟨.CUP_1, .RIGHT⟩).2 Item.POT (by decide)⟩

/-- C8: the legality check holds iff the moved item's displaced position
is within `[0, TABLE_WIDTH) × [0, TABLE_HEIGHT)` and no item of the board
occupies it. -/
theorem C8_legality_iff :
    ∀ (t : Table) (s : Step),
      t.is_step_possible s = true ↔
        ((0 ≤ ((t.configuration s.item).add s.direction.value).x ∧
          ((t.configuration s.item).add s.direction.value).x < TABLE_WIDTH ∧
          0 ≤ ((t.configuration s.item).add s.direction.value).y ∧
          ((t.configuration s.item).add s.direction.value).y < TABLE_HEIGHT) ∧
         ∀ i : Item, t.configuration i ≠ (t.configuration s.item).add s.direction.value) := by
  intro t s
  simp only [Table.is_step_possible, Position.is_within_rect, Table.is_position_vacant,
    Bool.and_eq_true, List.all_eq_true, decide_eq_true_eq]
  constructor
  · rintro ⟨⟨⟨h1, h2⟩, h3, h4⟩, hvac⟩
    exact ⟨⟨h1, h2, h3, h4⟩, fun i => hvac i (mem_item_all i)⟩
  · rintro ⟨⟨h1, h2, h3, h4⟩, hvac⟩
    exact ⟨⟨⟨h1, h2⟩, h3, h4⟩, fun i _ => hvac i⟩

/-- C9: the search and extraction are pure functions of the step bound and
the initial board, so two runs on identical inputs return identical trees
and identical solution sequences (same pairs in the same order). -/
theorem C9_deterministic :
    ∀ (n₁ n₂ : Nat) (t₁ t₂ : Table), n₁ = n₂ → t₁ = t₂ →
      solve n₁ t₁ = solve n₂ t₂ ∧
      extract_solutions (solve n₁ t₁) = extract_solutions (solve n₂ t₂) := by
  intro n₁ n₂ t₁ t₂ hn ht
  subst hn
  subst ht
  exact ⟨rfl, rfl⟩

theorem C9_deterministic_witness :
    solve 1 SOLVED_TABLE = solve 1 SOLVED_TABLE ∧
    extract_solutions (solve 1 SOLVED_TABLE) = extract_solutions (solve 1 SOLVED_TABLE) :=
  C9_deterministic 1 1 SOLVED_TABLE SOLVED_TABLE rfl rfl

/-- C10: the goal predicate is tested only on boards that result from
applying a candidate move, never on the board the search starts from, so
every path recorded in the tree holds at least one move — also when the
initial board already satisfies the goal — and an extracted pair with an
empty move list occurs only for the childless root. -/
theorem C10_no_zero_length_solutions :
    ∀ (n : Nat) (t : Table),
      (∀ p ∈ leafPathsOf (solve n t), 1 ≤ p.length) ∧
      (∀ (len : Int) (ms : List Step),
        (len, ms) ∈ extract_solutions (solve n t) → ms = [] → solve n t = []) := by
  intro n t
  constructor
  · intro p hp
    rcases mem_leafPathsOf.mp hp with ⟨tr, _, hptr⟩
    exact leafPaths_length_pos tr p hptr
  · intro len ms h hms
    rcases mem_extract_solutions h with ⟨h1, _, _⟩ | ⟨hp, _⟩
    · exact h1
    · subst hms
      rcases mem_leafPathsOf.mp hp with ⟨tr, _, hptr⟩
      have := leafPaths_length_pos tr [] hptr
      simp at this

theorem C10_no_zero_length_solutions_witness :
    is_result_table SOLVED_TABLE = true ∧
    [(⟨.CUP_1, .RIGHT⟩ : Step)] ∈ leafPathsOf (solve 1 SOLVED_TABLE) ∧
    1 ≤ ([(⟨.CUP_1, .RIGHT⟩ : Step)] : List Step).length ∧
    solve 0 INITIAL_TABLE = [] :=
  ⟨by decide, by decide,
   (C10_no_zero_length_solutions 1 SOLVED_TABLE).1 [⟨.CUP_1, .RIGHT⟩] (by decide),
   (C10_no_zero_length_solutions 0 INITIAL_TABLE).2 (-1) [] (by decide) rfl⟩

end Teaset
